import Mathlib

/-!
Shallow embedding of the Git-Wrapped mining pipeline (`src/read.py`) and proofs
about it.  The pipeline reads raw `git log --numstat` text, filters noise,
matches the author identity, estimates active coding hours with a session-gap
heuristic and assembles one dataset.

Conventions of the embedding:

* Python strings are Lean `String`s; the handful of `str` methods the source
  uses (`split`, `strip`, `lower`, `startswith`, `in`) are re-implemented on
  `List Char` below, following CPython semantics restricted to ASCII (the
  source only ever feeds them ASCII delimiters and the claims only concern
  ASCII data).
* Python `int` is `Int`, counters that are only ever incremented are `Nat`.
* Timestamps are exact rationals (seconds); Python floats are modelled as
  exact arithmetic.
* A Python exception that the source does not catch is modelled as `none`.
-/

namespace GitWrapped

/-- ASCII whitespace recognised by Python's `str.split` / `str.strip`. -/
def pyIsSpace (c : Char) : Bool :=
  c = ' ' || c = '\t' || c = '\n' || c = '\x0d' || c = '\x0b' || c = '\x0c'

/-- Python `str.strip()` (whitespace on both ends). -/
def pyStrip (s : String) : String :=
  String.mk (((s.data.dropWhile pyIsSpace).reverse.dropWhile pyIsSpace).reverse)

/-- Python `str.lower()` (ASCII case folding; the source only lowers ASCII). -/
def pyLower (s : String) : String :=
  String.mk (s.data.map Char.toLower)

/-- Python `str.startswith(pre)`. -/
def pyStartsWith (pre s : String) : Bool :=
  pre.data.isPrefixOf s.data

/-- Does `needle` occur as a contiguous substring of `hay`?  This is Python's
`needle in hay` on strings. -/
def strContainsList (needle : List Char) : List Char → Bool
  | [] => needle.isEmpty
  | c :: t => needle.isPrefixOf (c :: t) || strContainsList needle t

/-- Python `needle in hay` for strings. -/
def pyInStr (needle hay : String) : Bool :=
  strContainsList needle.data hay.data

/-- Split a character list on a separator character; always returns at least
one (possibly empty) group.  This is Python `s.split(sep)` for a one-character
separator. -/
def splitOnChar (sep : Char) : List Char → List (List Char)
  | [] => [[]]
  | c :: rest =>
    if c = sep then [] :: splitOnChar sep rest
    else
      match splitOnChar sep rest with
      | [] => [[c]]
      | h :: t => (c :: h) :: t

/-- Python `s.split(sep)` for a one-character separator. -/
def pySplitOn (sep : Char) (s : String) : List String :=
  (splitOnChar sep s.data).map String.mk

/-- Python `s.split(maxsplit=2)`: split on runs of whitespace, at most twice;
the third part keeps the rest of the string verbatim (leading whitespace of the
remainder consumed, trailing whitespace kept). -/
def pySplitMax2 (s : String) : List String :=
  let c0 := s.data.dropWhile pyIsSpace
  if c0.isEmpty then []
  else
    let t1 := c0.takeWhile (fun c => !pyIsSpace c)
    let c1 := (c0.dropWhile (fun c => !pyIsSpace c)).dropWhile pyIsSpace
    if c1.isEmpty then [String.mk t1]
    else
      let t2 := c1.takeWhile (fun c => !pyIsSpace c)
      let c2 := (c1.dropWhile (fun c => !pyIsSpace c)).dropWhile pyIsSpace
      if c2.isEmpty then [String.mk t1, String.mk t2]
      else [String.mk t1, String.mk t2, String.mk c2]

/-- Numeric value of an ASCII digit. -/
def dval (c : Char) : Nat := c.toNat - '0'.toNat

/-- Tail of a Python integer literal body: digits with single underscores
allowed between digits. -/
def isDigitTail : List Char → Bool
  | [] => true
  | ['_'] => false
  | '_' :: c :: r => c.isDigit && isDigitTail r
  | c :: r => c.isDigit && isDigitTail r

/-- A valid Python integer literal body: nonempty, starts with a digit,
underscores only between digits. -/
def isDigitRun : List Char → Bool
  | [] => false
  | c :: r => c.isDigit && isDigitTail r

/-- Value of a digit run, ignoring underscores. -/
def digitsVal (cs : List Char) : Nat :=
  cs.foldl (fun n c => if c = '_' then n else 10 * n + dval c) 0

/-- Python `int(s)`: optional surrounding whitespace, optional sign, then a
digit run with optional single underscores between digits.  `none` models a
`ValueError`. -/
def pyInt (s : String) : Option Int :=
  let cs := ((s.data.dropWhile pyIsSpace).reverse.dropWhile pyIsSpace).reverse
  match cs with
  | '+' :: r => if isDigitRun r then some ((digitsVal r : Nat) : Int) else none
  | '-' :: r => if isDigitRun r then some (-((digitsVal r : Nat) : Int)) else none
  | _ => if isDigitRun cs then some ((digitsVal cs : Nat) : Int) else none

/-- Python `os.path.basename` (POSIX): everything after the last `/`. -/
def basename (s : String) : String :=
  String.mk ((splitOnChar '/' s.data).getLastD [])

/-- Extension of one path segment (no `/` inside): the suffix starting at the
last dot, except that a segment whose characters before that dot are all dots
(such as `.bashrc`) has no extension.  `base.reverse.takeWhile (· ≠ '.')` is
the part after the last dot, reversed; its length equals `base.length` exactly
when there is no dot at all. -/
def splitextExtCore (base : List Char) : List Char :=
  if (base.reverse.takeWhile (fun c => c ≠ '.')).length = base.length then []
  else if ((base.reverse.drop
      ((base.reverse.takeWhile (fun c => c ≠ '.')).length + 1)).reverse).any
      (fun c => c ≠ '.') then
    '.' :: (base.reverse.takeWhile (fun c => c ≠ '.')).reverse
  else []

/-- The extension part of Python `os.path.splitext`: the suffix of the final
path segment starting at its last dot, except that a segment consisting of
leading dots only (such as `.bashrc`) has no extension. -/
def splitextExt (s : String) : String :=
  String.mk (splitextExtCore ((splitOnChar '/' s.data).getLastD []))

/-- The `IGNORE_EXTENSIONS` set of `read.py`. -/
def IGNORE_EXTENSIONS : List String :=
  [".lock", ".svg", ".map", ".csv", ".tsv", ".min.js", ".min.css", ".jsonl",
   ".ipynb", ".png", ".jpg", ".jpeg", ".gif", ".ico", ".webp"]

/-- The `IGNORE_EXACT_FILES` set of `read.py`. -/
def IGNORE_EXACT_FILES : List String :=
  ["package-lock.json", "yarn.lock", "pnpm-lock.yaml", "composer.lock",
   "Cargo.lock", "Gemfile.lock", "poetry.lock"]

/-- The `EXTENSIONS` extension-to-language table of `read.py`. -/
def EXTENSIONS : List (String × String) :=
  [(".py", "Python"), (".js", "JavaScript"), (".ts", "TypeScript"),
   (".rs", "Rust"), (".html", "HTML"), (".css", "CSS"), (".scss", "CSS"),
   (".c", "C"), (".h", "C"), (".hpp", "C++"), (".cpp", "C++"), (".cc", "C++"),
   (".cu", "CUDA"), (".cuh", "CUDA"), (".java", "Java"), (".go", "Go"),
   (".rb", "Ruby"), (".php", "PHP"), (".sh", "Shell"), (".bash", "Shell"),
   (".zsh", "Shell"), (".md", "Markdown"), (".json", "JSON"),
   (".yaml", "YAML"), (".yml", "YAML"), (".sql", "SQL"),
   (".dockerfile", "Docker"), ("dockerfile", "Docker"), (".xml", "XML"),
   (".vue", "Vue"), (".jsx", "React"), (".tsx", "React"), (".toml", "TOML"),
   (".lua", "Lua")]

/-- The immutable identity configuration (`MY_EMAILS` / `MY_NAMES`). -/
structure Config where
  my_emails : List String
  my_names : List String

/-- The `is_me` identity matcher of `read.py`: exact membership of the email
or the name, else a substring check of each configured email in the email. -/
def is_me (cfg : Config) (name email : String) : Bool :=
  if cfg.my_emails.contains email || cfg.my_names.contains name then true
  else cfg.my_emails.any fun my_id => pyInStr my_id email

/-- The per-commit accumulator dict built by `parse_git_log`. -/
structure RawCommit where
  hash : String
  date : String
  name : String
  email : String
  additions : Int
  deletions : Int
  files : Nat
deriving DecidableEq, Repr

/-- One numstat body line applied to the current commit.  Mirrors the three
statements guarded by `except ValueError: pass`: a `ValueError` raised while
parsing a field keeps every mutation already performed and abandons the rest
of the line. -/
def statUpdate (c : RawCommit) (added deleted : String) : RawCommit :=
  match (if added = "-" then some c
         else (pyInt added).map fun v => { c with additions := c.additions + v }) with
  | none => c
  | some c1 =>
    match (if deleted = "-" then some c1
           else (pyInt deleted).map fun v => { c1 with deletions := c1.deletions + v }) with
    | none => c1
    | some c2 => { c2 with files := c2.files + 1 }

/-- Flush the pending commit to the result list when its author matches. -/
def saveCur (cfg : Config) (cur : Option RawCommit) (acc : List RawCommit) :
    List RawCommit :=
  match cur with
  | some c => if is_me cfg c.name c.email then acc ++ [c] else acc
  | none => acc

/-- The line loop of `parse_git_log`.  A `HEADER|` line with fewer than five
`|`-separated fields raises an `IndexError`, which the enclosing
`except Exception` turns into returning the commits saved so far (the pending
commit is lost). -/
def processLines (cfg : Config) :
    List String → Option RawCommit → List RawCommit → List RawCommit
  | [], cur, acc => saveCur cfg cur acc
  | line :: rest, cur, acc =>
    if pyStartsWith "HEADER|" line then
      let acc1 := saveCur cfg cur acc
      match (pySplitOn '|' line)[1]?, (pySplitOn '|' line)[2]?,
            (pySplitOn '|' line)[3]?, (pySplitOn '|' line)[4]? with
      | some hsh, some dt, some nm, some em =>
        processLines cfg rest
          (some { hash := hsh, date := dt, name := pyStrip nm,
                  email := pyLower (pyStrip em),
                  additions := 0, deletions := 0, files := 0 }) acc1
      | _, _, _, _ => acc1
    else
      match cur with
      | none => processLines cfg rest none acc
      | some c =>
        if pyStrip line = "" then processLines cfg rest (some c) acc
        else
          match pySplitMax2 line with
          | [added, deleted, fn] =>
            if IGNORE_EXACT_FILES.contains (basename (pyStrip fn)) then
              processLines cfg rest (some c) acc
            else if IGNORE_EXTENSIONS.contains
                (pyLower (splitextExt (pyStrip fn))) then
              processLines cfg rest (some c) acc
            else
              processLines cfg rest (some (statUpdate c added deleted)) acc
          | _ => processLines cfg rest (some c) acc

/-- The `parse_git_log` function of `read.py`, applied to the raw stdout lines
of the `git log --numstat` invocation. -/
def parse_git_log (cfg : Config) (lines : List String) : List RawCommit :=
  processLines cfg lines none []

/-- Is the proleptic-Gregorian year a leap year? -/
def isLeap (y : Nat) : Bool :=
  y % 4 == 0 && (y % 100 != 0 || y % 400 == 0)

/-- Length of a month. -/
def monthDays (leap : Bool) (m : Nat) : Nat :=
  match m with
  | 2 => if leap then 29 else 28
  | 4 | 6 | 9 | 11 => 30
  | _ => 31

/-- Days before the first of month `m` in a year. -/
def daysBefore (leap : Bool) (m : Nat) : Nat :=
  let base :=
    match m with
    | 1 => 0 | 2 => 31 | 3 => 59 | 4 => 90 | 5 => 120 | 6 => 151 | 7 => 181
    | 8 => 212 | 9 => 243 | 10 => 273 | 11 => 304 | _ => 334
  if leap = true ∧ 3 ≤ m then base + 1 else base

/-- Python `date(y, m, d).toordinal()`: day number with 0001-01-01 as day 1
(proleptic Gregorian calendar). -/
def toOrdinal (y m d : Nat) : Nat :=
  365 * (y - 1) + (y - 1) / 4 - (y - 1) / 100 + (y - 1) / 400
    + daysBefore (isLeap y) m + d

/-- Model of Python `datetime.fromisoformat` restricted to the
`YYYY-MM-DDTHH:MM:SS+HH:MM` / `YYYY-MM-DDTHH:MM:SS-HH:MM` shape that
`git log --format=%aI` emits, returning the instant as UTC seconds since the
Unix epoch (ordinal of 1970-01-01 is 719163).  Any other shape is treated as a
parse failure; in `estimate_hours` a failure models the uncaught `ValueError`
of the source. -/
def fromisoformat (s : String) : Option ℚ :=
  match s.data with
  | [y1, y2, y3, y4, '-', u1, u2, '-', d1, d2, 'T',
     h1, h2, ':', n1, n2, ':', e1, e2, sg, o1, o2, ':', q1, q2] =>
    if ([y1, y2, y3, y4, u1, u2, d1, d2, h1, h2, n1, n2, e1, e2,
         o1, o2, q1, q2].all Char.isDigit) && (sg = '+' || sg = '-') then
      let y := 1000 * dval y1 + 100 * dval y2 + 10 * dval y3 + dval y4
      let mo := 10 * dval u1 + dval u2
      let dd := 10 * dval d1 + dval d2
      let hh := 10 * dval h1 + dval h2
      let mi := 10 * dval n1 + dval n2
      let ss := 10 * dval e1 + dval e2
      let oh := 10 * dval o1 + dval o2
      let om := 10 * dval q1 + dval q2
      if 1 ≤ y ∧ 1 ≤ mo ∧ mo ≤ 12 ∧ 1 ≤ dd ∧ dd ≤ monthDays (isLeap y) mo ∧
         hh ≤ 23 ∧ mi ≤ 59 ∧ ss ≤ 59 ∧ oh ≤ 23 ∧ om ≤ 59 then
        let offs : Int := oh * 3600 + om * 60
        some ((((toOrdinal y mo dd : Int) - 719163) * 86400
          + ((hh * 3600 + mi * 60 + ss : Nat) : Int)
          - (if sg = '+' then offs else -offs) : Int) : ℚ)
      else none
    else none
  | _ => none

/-- Contribution of one gap between consecutive sorted timestamps, in seconds:
a gap below two hours is counted as is, a larger gap counts a flat hour (start
of a new session). -/
def sessionAdd (gap : ℚ) : ℚ :=
  if gap < 7200 then gap else 3600

/-- Total seconds credited to a sorted timestamp list: 3600 seed for the first
commit plus one `sessionAdd` per consecutive pair. -/
def sessionSeconds : List ℚ → ℚ
  | [] => 0
  | [_] => 3600
  | a :: b :: rest => sessionAdd (b - a) + sessionSeconds (b :: rest)

/-- The timestamp-level body of `estimate_hours`: the dates obtained from
`fromisoformat`, sorted ascending, run through the session-gap loop, total in
hours.  Empty input short-circuits to 0. -/
def estimate_hours_core (dates : List ℚ) : ℚ :=
  if dates.isEmpty then 0
  else sessionSeconds (List.insertionSort (· ≤ ·) dates) / 3600

/-- A flattened commit as appended to `all_commits` in `main`. -/
structure FlatCommit where
  date : String
  repo : String
  additions : Int
  deletions : Int
  impact : Int
deriving DecidableEq, Repr

/-- The `estimate_hours` function of `read.py`.  `none` models the uncaught
`ValueError` when some date string does not parse. -/
def estimate_hours (commits : List FlatCommit) : Option ℚ :=
  if commits.isEmpty then some 0
  else if (commits.map fun c => fromisoformat c.date).all Option.isSome then
    some (estimate_hours_core (commits.map fun c => fromisoformat c.date).reduceOption)
  else none

/-- Add `v` to key `k` of an insertion-ordered counter dict
(Python `defaultdict(int)` update `m[k] += v`). -/
def bumpBy (m : List (String × Nat)) (k : String) (v : Nat) :
    List (String × Nat) :=
  if m.any (fun p => p.1 == k) then
    m.map fun p => if p.1 == k then (p.1, p.2 + v) else p
  else m ++ [(k, v)]

/-- Overwrite key `k` of an insertion-ordered dict (Python `m[k] = v`). -/
def dictSet (m : List (String × Nat)) (k : String) (v : Nat) :
    List (String × Nat) :=
  if m.any (fun p => p.1 == k) then
    m.map fun p => if p.1 == k then (p.1, v) else p
  else m ++ [(k, v)]

/-- The `get_current_languages` function of `read.py`, applied to the tracked
file list reported by `git ls-files`. -/
def get_current_languages (files : List String) : List (String × Nat) :=
  files.foldl
    (fun m f =>
      match EXTENSIONS.lookup (pyLower (splitextExt f)) with
      | some lang => bumpBy m lang 1
      | none => m)
    []

/-- One discovered repository as seen by `main`: its basename together with
the raw text its two `git` invocations produce. -/
structure RepoInput where
  name : String
  log : List String
  files : List String

/-- The dataset `main` assembles (the `generated_at` wall-clock field is out
of the embedding's scope). -/
structure Dataset where
  detailed_commits : List FlatCommit
  languages : List (String × Nat)
  repos : List (String × Nat)
  total_hours_estimated : ℚ
deriving DecidableEq, Repr

/-- Flattening of a parsed commit in the `main` loop. -/
def flatten (repoName : String) (c : RawCommit) : FlatCommit :=
  { date := c.date, repo := repoName, additions := c.additions,
    deletions := c.deletions, impact := c.additions + c.deletions }

/-- One iteration of the repository loop in `main`, updating the
`(all_commits, language_counts, repo_totals)` accumulators. -/
def mainStep (cfg : Config)
    (st : List FlatCommit × List (String × Nat) × List (String × Nat))
    (r : RepoInput) :
    List FlatCommit × List (String × Nat) × List (String × Nat) :=
  let repo_commits := parse_git_log cfg r.log
  (st.1 ++ repo_commits.map (flatten r.name),
   (get_current_languages r.files).foldl (fun m p => bumpBy m p.1 p.2) st.2.1,
   if 0 < repo_commits.length then dictSet st.2.2 r.name repo_commits.length
   else st.2.2)

/-- The `main` function of `read.py` on the discovered repositories, producing
the exported dataset; `none` models a crash of the uncaught
`estimate_hours` exception. -/
def main (cfg : Config) (repos : List RepoInput) : Option Dataset :=
  let st := repos.foldl (mainStep cfg) ([], [], [])
  match estimate_hours st.1 with
  | none => none
  | some h =>
    some { detailed_commits := st.1, languages := st.2.1, repos := st.2.2,
           total_hours_estimated := h }

/-! ### Estimator lemmas -/

lemma sessionAdd_nonneg {g : ℚ} (hg : 0 ≤ g) : 0 ≤ sessionAdd g := by
  unfold sessionAdd
  split <;> [exact hg; norm_num]

lemma sessionAdd_split {g1 g2 : ℚ} (h1 : 0 ≤ g1) (h2 : 0 ≤ g2) :
    sessionAdd (g1 + g2) ≤ sessionAdd g1 + sessionAdd g2 := by
  unfold sessionAdd
  split_ifs <;> linarith

lemma sessionAdd_of_ge {g : ℚ} (hg : 7200 ≤ g) : sessionAdd g = 3600 := by
  unfold sessionAdd
  rw [if_neg (by linarith)]

lemma sessionSeconds_nonneg : ∀ {l : List ℚ}, List.Sorted (· ≤ ·) l →
    0 ≤ sessionSeconds l
  | [], _ => le_refl 0
  | [_], _ => by norm_num [sessionSeconds]
  | a :: b :: r, h => by
    have hab : a ≤ b := List.rel_of_sorted_cons h b (by simp)
    have ht : List.Sorted (· ≤ ·) (b :: r) := h.of_cons
    have := sessionSeconds_nonneg ht
    have := sessionAdd_nonneg (by linarith : (0:ℚ) ≤ b - a)
    simp only [sessionSeconds]
    linarith

lemma sessionSeconds_orderedInsert (t : ℚ) :
    ∀ l : List ℚ, List.Sorted (· ≤ ·) l →
      sessionSeconds l ≤ sessionSeconds (List.orderedInsert (· ≤ ·) t l)
  | [], _ => by norm_num [List.orderedInsert, sessionSeconds]
  | [a], _ => by
    simp only [List.orderedInsert]
    split_ifs with h
    · have : (0:ℚ) ≤ a - t := by linarith
      have := sessionAdd_nonneg this
      simp only [sessionSeconds]; linarith
    · have : (0:ℚ) ≤ t - a := by linarith
      have := sessionAdd_nonneg this
      simp only [sessionSeconds]; linarith
  | a :: b :: r, h => by
    have hab : a ≤ b := List.rel_of_sorted_cons h b (by simp)
    have ht : List.Sorted (· ≤ ·) (b :: r) := h.of_cons
    by_cases h1 : t ≤ a
    · -- t goes in front: adds a nonnegative gap
      have e : List.orderedInsert (· ≤ ·) t (a :: b :: r) = t :: a :: b :: r := by
        simp [List.orderedInsert, if_pos h1]
      rw [e]
      have hnn := sessionAdd_nonneg (by linarith : (0:ℚ) ≤ a - t)
      have gr : sessionSeconds (t :: a :: b :: r)
          = sessionAdd (a - t) + sessionSeconds (a :: b :: r) := rfl
      rw [gr]; linarith
    · push_neg at h1
      by_cases h2 : t ≤ b
      · -- t lands between a and b
        have e : List.orderedInsert (· ≤ ·) t (a :: b :: r) = a :: t :: b :: r := by
          simp [List.orderedInsert, if_neg (not_le.mpr h1), if_pos h2]
        rw [e]
        have hsplit := sessionAdd_split
          (by linarith : (0:ℚ) ≤ t - a) (by linarith : (0:ℚ) ≤ b - t)
        have gl : sessionSeconds (a :: b :: r)
            = sessionAdd (b - a) + sessionSeconds (b :: r) := rfl
        have gr : sessionSeconds (a :: t :: b :: r)
            = sessionAdd (t - a) + (sessionAdd (b - t) + sessionSeconds (b :: r)) := rfl
        rw [gl, gr]
        have hba : b - a = (t - a) + (b - t) := by ring
        rw [hba]
        linarith
      · -- t goes further right; use the induction hypothesis
        have ih := sessionSeconds_orderedInsert t (b :: r) ht
        have e1 : List.orderedInsert (· ≤ ·) t (b :: r)
            = b :: List.orderedInsert (· ≤ ·) t r := by
          simp [List.orderedInsert, if_neg h2]
        have e : List.orderedInsert (· ≤ ·) t (a :: b :: r)
            = a :: b :: List.orderedInsert (· ≤ ·) t r := by
          simp [List.orderedInsert, if_neg (not_le.mpr h1), if_neg h2]
        rw [e1] at ih
        rw [e]
        have gl : sessionSeconds (a :: b :: r)
            = sessionAdd (b - a) + sessionSeconds (b :: r) := rfl
        have gr : sessionSeconds (a :: b :: List.orderedInsert (· ≤ ·) t r)
            = sessionAdd (b - a)
              + sessionSeconds (b :: List.orderedInsert (· ≤ ·) t r) := rfl
        rw [gl, gr]
        linarith

lemma isEmpty_iff_nil {l : List ℚ} : l.isEmpty = true ↔ l = [] := by
  cases l <;> simp

lemma estimate_hours_core_nil : estimate_hours_core [] = 0 := rfl

lemma estimate_hours_core_of_ne_nil {l : List ℚ} (h : l ≠ []) :
    estimate_hours_core l
      = sessionSeconds (List.insertionSort (· ≤ ·) l) / 3600 := by
  unfold estimate_hours_core
  rw [if_neg (by simpa [isEmpty_iff_nil] using h)]

lemma estimate_hours_core_cons_le (t : ℚ) (l : List ℚ) :
    estimate_hours_core l ≤ estimate_hours_core (t :: l) := by
  rcases l with _ | ⟨a, r⟩
  · rw [estimate_hours_core_nil, estimate_hours_core_of_ne_nil (by simp)]
    have hs : List.Sorted (· ≤ ·) (List.insertionSort (· ≤ ·) [t]) :=
      List.sorted_insertionSort _ _
    have := sessionSeconds_nonneg hs
    positivity
  · rw [@estimate_hours_core_of_ne_nil (a :: r) (by simp),
      estimate_hours_core_of_ne_nil (by simp)]
    rw [div_le_div_iff_of_pos_right (by norm_num : (0:ℚ) < 3600)]
    have hs : List.Sorted (· ≤ ·) (List.insertionSort (· ≤ ·) (a :: r)) :=
      List.sorted_insertionSort _ _
    simpa [List.insertionSort] using
      sessionSeconds_orderedInsert t (List.insertionSort (· ≤ ·) (a :: r)) hs

lemma estimate_hours_core_perm {l1 l2 : List ℚ} (h : List.Perm l1 l2) :
    estimate_hours_core l1 = estimate_hours_core l2 := by
  rcases eq_or_ne l1 [] with rfl | h1
  · rw [List.perm_nil.mp h.symm]
  · have h2 : l2 ≠ [] := fun hx => h1 (List.perm_nil.mp (hx ▸ h))
    rw [estimate_hours_core_of_ne_nil h1, estimate_hours_core_of_ne_nil h2]
    have hperm : List.Perm (List.insertionSort (· ≤ ·) l1) (List.insertionSort (· ≤ ·) l2) :=
      (List.perm_insertionSort _ l1).trans (h.trans (List.perm_insertionSort _ l2).symm)
    rw [List.eq_of_perm_of_sorted hperm (List.sorted_insertionSort _ l1)
      (List.sorted_insertionSort _ l2)]

/-- Reference formula following the spec's words (§4.5 / §8): 1.0 hour plus,
for each consecutive pair of ascending-sorted timestamps, the gap itself (in
hours) when the gap is under 2 hours and a flat 1 hour otherwise.  This
definition is written from the specification, to be compared with
`estimate_hours_core`, which is written from the source. -/
def specGapHours : List ℚ → ℚ
  | a :: b :: rest =>
    (if (b - a) / 3600 < 2 then (b - a) / 3600 else 1) + specGapHours (b :: rest)
  | _ => 0

lemma sessionSeconds_div_eq_spec :
    ∀ l : List ℚ, l ≠ [] → sessionSeconds l / 3600 = 1 + specGapHours l
  | [], h => absurd rfl h
  | [_], _ => by norm_num [sessionSeconds, specGapHours]
  | a :: b :: r, _ => by
    have ih := sessionSeconds_div_eq_spec (b :: r) (by simp)
    have gl : sessionSeconds (a :: b :: r)
        = sessionAdd (b - a) + sessionSeconds (b :: r) := rfl
    have gs : specGapHours (a :: b :: r)
        = (if (b - a) / 3600 < 2 then (b - a) / 3600 else 1)
          + specGapHours (b :: r) := rfl
    rw [gl, gs, add_div, ih]
    have hgap : sessionAdd (b - a) / 3600
        = (if (b - a) / 3600 < 2 then (b - a) / 3600 else 1) := by
      unfold sessionAdd
      by_cases hg : b - a < 7200
      · rw [if_pos hg, if_pos (by rw [div_lt_iff (by norm_num : (0:ℚ) < 3600)]; linarith)]
      · rw [if_neg hg, if_neg (by rw [div_lt_iff (by norm_num : (0:ℚ) < 3600)]; push_neg at hg ⊢; linarith)]
        norm_num
    rw [hgap]
    ring

lemma insertionSort_pair {t u : ℚ} (h : t ≤ u) :
    List.insertionSort (· ≤ ·) [t, u] = [t, u] :=
  List.Sorted.insertionSort_eq (by simp [List.sorted_cons, h])

lemma insertionSort_triple {t u v : ℚ} (h1 : t ≤ u) (h2 : u ≤ v) :
    List.insertionSort (· ≤ ·) [t, u, v] = [t, u, v] :=
  List.Sorted.insertionSort_eq
    (by simp [List.sorted_cons, h1, h2, le_trans h1 h2])

/-- C1.  The active-time estimator meets the spec's reference values: 0 on the
empty list, 1.0 hour for a single timestamp, 1.5 for a 30-minute gap, 2.0 for
a 5-hour gap, 1 + 1 + 5/6 for the three-commit example, and in general 1.0
hour plus the spec's per-gap contribution over the ascending-sorted
timestamps. -/
theorem C1_estimator_reference_values :
    estimate_hours_core [] = 0
    ∧ (∀ t : ℚ, estimate_hours_core [t] = 1)
    ∧ (∀ t : ℚ, estimate_hours_core [t, t + 1800] = 3/2)
    ∧ (∀ t : ℚ, estimate_hours_core [t, t + 18000] = 2)
    ∧ (∀ t : ℚ, estimate_hours_core [t, t + 3600, t + 6600] = 1 + 1 + 5/6)
    ∧ (∀ dates : List ℚ, dates ≠ [] →
        estimate_hours_core dates
          = 1 + specGapHours (List.insertionSort (· ≤ ·) dates)) := by
  refine ⟨rfl, ?_, ?_, ?_, ?_, ?_⟩
  · intro t
    rw [estimate_hours_core_of_ne_nil (show [t] ≠ [] from by simp)]
    norm_num [List.insertionSort, List.orderedInsert, sessionSeconds]
  · intro t
    rw [estimate_hours_core_of_ne_nil (show [t, t + 1800] ≠ [] from by simp),
      insertionSort_pair (by linarith)]
    have : sessionSeconds [t, t + 1800]
        = sessionAdd (t + 1800 - t) + 3600 := rfl
    rw [this]
    norm_num [sessionAdd]
  · intro t
    rw [estimate_hours_core_of_ne_nil (show [t, t + 18000] ≠ [] from by simp),
      insertionSort_pair (by linarith)]
    have : sessionSeconds [t, t + 18000]
        = sessionAdd (t + 18000 - t) + 3600 := rfl
    rw [this]
    norm_num [sessionAdd]
  · intro t
    rw [estimate_hours_core_of_ne_nil (show [t, t + 3600, t + 6600] ≠ [] from by simp),
      insertionSort_triple (by linarith) (by linarith)]
    have : sessionSeconds [t, t + 3600, t + 6600]
        = sessionAdd (t + 3600 - t)
          + (sessionAdd (t + 6600 - (t + 3600)) + 3600) := rfl
    rw [this]
    norm_num [sessionAdd]
  · intro dates h
    rw [estimate_hours_core_of_ne_nil h]
    have hne : List.insertionSort (· ≤ ·) dates ≠ [] := by
      intro hx
      exact h (List.perm_nil.mp (hx ▸ (List.perm_insertionSort _ dates).symm))
    exact sessionSeconds_div_eq_spec _ hne

/-- Witness for C1: the general-formula clause applied at the concrete input
`[0, 1800]`. -/
theorem C1_estimator_reference_values_witness :
    ([(0:ℚ), 1800] ≠ [])
    ∧ estimate_hours_core [(0:ℚ), 1800]
        = 1 + specGapHours (List.insertionSort (· ≤ ·) [(0:ℚ), 1800]) :=
  ⟨by simp, C1_estimator_reference_values.2.2.2.2.2 [(0:ℚ), 1800] (by simp)⟩

lemma sessionSeconds_map_add (δ : ℚ) :
    ∀ l : List ℚ, sessionSeconds (l.map (· + δ)) = sessionSeconds l
  | [] => rfl
  | [_] => rfl
  | a :: b :: r => by
    have ih := sessionSeconds_map_add δ (b :: r)
    have gl : sessionSeconds ((a :: b :: r).map (· + δ))
        = sessionAdd ((b + δ) - (a + δ)) + sessionSeconds ((b :: r).map (· + δ)) := rfl
    rw [gl, ih]
    have e : (b + δ) - (a + δ) = b - a := by ring
    have gr : sessionSeconds (a :: b :: r)
        = sessionAdd (b - a) + sessionSeconds (b :: r) := rfl
    rw [e, gr]

lemma sessionSeconds_append_congr :
    ∀ (xs : List ℚ) (a : ℚ) (r r2 : List ℚ),
      sessionSeconds (a :: r) = sessionSeconds (a :: r2) →
      sessionSeconds (xs ++ a :: r) = sessionSeconds (xs ++ a :: r2)
  | [], _, _, _, h => h
  | [x], a, r, r2, h => by
    have gl : sessionSeconds ([x] ++ a :: r)
        = sessionAdd (a - x) + sessionSeconds (a :: r) := rfl
    have gr : sessionSeconds ([x] ++ a :: r2)
        = sessionAdd (a - x) + sessionSeconds (a :: r2) := rfl
    rw [gl, gr, h]
  | x :: y :: xs, a, r, r2, h => by
    have ih := sessionSeconds_append_congr (y :: xs) a r r2 h
    have gl : sessionSeconds ((x :: y :: xs) ++ a :: r)
        = sessionAdd (y - x) + sessionSeconds ((y :: xs) ++ a :: r) := rfl
    have gr : sessionSeconds ((x :: y :: xs) ++ a :: r2)
        = sessionAdd (y - x) + sessionSeconds ((y :: xs) ++ a :: r2) := rfl
    rw [gl, gr, ih]

/-- C7.  The estimator is monotone in commit count (inserting a timestamp
anywhere never decreases the estimate) and insensitive to the size of a gap
once it reaches the 2-hour (7200 s) session threshold: stretching such a gap
by any amount `δ` that keeps it at or above the threshold leaves the estimate
unchanged. -/
theorem C7_monotone_and_gap_insensitive :
    (∀ (t : ℚ) (l1 l2 : List ℚ),
      estimate_hours_core (l1 ++ l2) ≤ estimate_hours_core (l1 ++ t :: l2))
    ∧ (∀ (xs : List ℚ) (a b δ : ℚ) (ys : List ℚ),
        List.Sorted (· ≤ ·) (xs ++ [a]) → List.Sorted (· ≤ ·) (b :: ys) →
        7200 ≤ b - a → 7200 ≤ b + δ - a →
        estimate_hours_core ((xs ++ [a]) ++ b :: ys)
          = estimate_hours_core ((xs ++ [a]) ++ (b :: ys).map (· + δ))) := by
  constructor
  · intro t l1 l2
    rw [estimate_hours_core_perm (List.perm_middle)]
    exact estimate_hours_core_cons_le t (l1 ++ l2)
  · intro xs a b δ ys h1 h2 hg1 hg2
    have hab : a ≤ b := by linarith
    have hxa : ∀ x ∈ xs ++ [a], x ≤ a := by
      have h1' := List.pairwise_append.mp h1
      intro x hx
      rcases List.mem_append.mp hx with hx | hx
      · exact h1'.2.2 x hx a (by simp)
      · simp at hx; exact le_of_eq hx
    have hby : ∀ y ∈ b :: ys, b ≤ y := by
      intro y hy
      rcases List.mem_cons.mp hy with rfl | hy
      · exact le_refl _
      · exact List.rel_of_sorted_cons h2 y hy
    have hs1 : List.Sorted (· ≤ ·) ((xs ++ [a]) ++ b :: ys) := by
      refine List.pairwise_append.mpr ⟨h1, h2, ?_⟩
      intro x hx y hy
      exact le_trans (hxa x hx) (le_trans hab (hby y hy))
    have h2m : List.Sorted (· ≤ ·) ((b :: ys).map (· + δ)) := by
      rw [List.Sorted, List.pairwise_map]
      exact h2.imp fun hr => by linarith
    have hs2 : List.Sorted (· ≤ ·) ((xs ++ [a]) ++ (b :: ys).map (· + δ)) := by
      refine List.pairwise_append.mpr ⟨h1, h2m, ?_⟩
      intro x hx y hy
      rcases List.mem_map.mp hy with ⟨z, hz, rfl⟩
      have hbz := hby z hz
      have hxa2 := hxa x hx
      linarith
    rw [estimate_hours_core_of_ne_nil (by simp),
      estimate_hours_core_of_ne_nil (by simp),
      List.Sorted.insertionSort_eq hs1, List.Sorted.insertionSort_eq hs2]
    congr 1
    have hkey : sessionSeconds (a :: b :: ys)
        = sessionSeconds (a :: (b :: ys).map (· + δ)) := by
      have gl : sessionSeconds (a :: b :: ys)
          = sessionAdd (b - a) + sessionSeconds (b :: ys) := rfl
      have gr : sessionSeconds (a :: (b :: ys).map (· + δ))
          = sessionAdd (b + δ - a) + sessionSeconds ((b :: ys).map (· + δ)) := rfl
      rw [gl, gr, sessionAdd_of_ge hg1, sessionAdd_of_ge hg2,
        sessionSeconds_map_add]
    have el : (xs ++ [a]) ++ b :: ys = xs ++ a :: (b :: ys) := by simp
    have er : (xs ++ [a]) ++ (b :: ys).map (· + δ)
        = xs ++ a :: ((b :: ys).map (· + δ)) := by simp
    rw [el, er]
    exact sessionSeconds_append_congr xs a _ _ hkey

/-- Witness for C7: the gap-replacement clause applied at a concrete
two-timestamp input, stretching a 2-hour gap to 3 hours. -/
theorem C7_monotone_and_gap_insensitive_witness :
    List.Sorted (· ≤ ·) ([] ++ [(0:ℚ)])
    ∧ List.Sorted (· ≤ ·) [(7200:ℚ)]
    ∧ (7200:ℚ) ≤ 7200 - 0
    ∧ (7200:ℚ) ≤ 7200 + 3600 - 0
    ∧ estimate_hours_core (([] ++ [(0:ℚ)]) ++ [(7200:ℚ)])
        = estimate_hours_core (([] ++ [(0:ℚ)]) ++ [(7200:ℚ)].map (· + 3600)) :=
  ⟨by simp, by simp, by norm_num, by norm_num,
   C7_monotone_and_gap_insensitive.2 [] 0 7200 3600 []
     (by simp) (by simp) (by norm_num) (by norm_num)⟩

lemma all_isSome_of_perm {p1 p2 : List (Option ℚ)} (h : List.Perm p1 p2) :
    p1.all Option.isSome = p2.all Option.isSome := by
  by_cases h2 : p2.all Option.isSome = true
  · rw [h2, List.all_eq_true]
    intro x hx
    exact List.all_eq_true.mp h2 x (h.mem_iff.mp hx)
  · rw [Bool.eq_false_iff.mpr h2, Bool.eq_false_iff]
    intro hc
    exact h2 (List.all_eq_true.mpr fun x hx =>
      List.all_eq_true.mp hc x (h.mem_iff.mpr hx))

lemma estimate_hours_congr_perm {c1 c2 : List FlatCommit}
    (h : List.Perm c1 c2) : estimate_hours c1 = estimate_hours c2 := by
  have hemp : c1.isEmpty = c2.isEmpty := by
    rcases c1 with _ | ⟨x, xs⟩
    · rw [List.perm_nil.mp h.symm]
    · rcases c2 with _ | ⟨y, ys⟩
      · exact absurd (List.perm_nil.mp h) (by simp)
      · rfl
  unfold estimate_hours
  rw [hemp]
  by_cases hc : c2.isEmpty = true
  · rw [if_pos hc, if_pos hc]
  · rw [if_neg hc, if_neg hc]
    have hp : List.Perm (c1.map fun c => fromisoformat c.date)
        (c2.map fun c => fromisoformat c.date) := h.map _
    rw [all_isSome_of_perm hp]
    by_cases hsome : (c2.map fun c => fromisoformat c.date).all Option.isSome = true
    · rw [if_pos hsome, if_pos hsome]
      have hro : List.Perm (c1.map fun c => fromisoformat c.date).reduceOption
          (c2.map fun c => fromisoformat c.date).reduceOption := hp.filterMap id
      rw [estimate_hours_core_perm hro]
    · rw [if_neg hsome, if_neg hsome]

/-- C9.  The estimator is invariant under permutation of its input commit
list: it sorts the parsed timestamps internally, so callers need not
pre-sort. -/
theorem C9_estimate_hours_perm_invariant (c1 c2 : List FlatCommit)
    (h : List.Perm c1 c2) : estimate_hours c1 = estimate_hours c2 :=
  estimate_hours_congr_perm h

/-- A concrete flattened commit used by witnesses. -/
def fcW1 : FlatCommit :=
  { date := "2024-01-01T10:00:00+00:00", repo := "A",
    additions := 1, deletions := 2, impact := 3 }

/-- A second concrete flattened commit used by witnesses. -/
def fcW2 : FlatCommit :=
  { date := "2024-01-01T12:00:00+00:00", repo := "B",
    additions := 0, deletions := 0, impact := 0 }

/-- Witness for C9: swapping two concrete commits leaves the estimate
unchanged. -/
theorem C9_estimate_hours_perm_invariant_witness :
    List.Perm [fcW1, fcW2] [fcW2, fcW1]
    ∧ estimate_hours [fcW1, fcW2] = estimate_hours [fcW2, fcW1] :=
  ⟨List.Perm.swap fcW2 fcW1 [],
   C9_estimate_hours_perm_invariant _ _ (List.Perm.swap fcW2 fcW1 [])⟩

/-! ### Identity matching -/

lemma strContainsList_iff (n : List Char) :
    ∀ hay : List Char, strContainsList n hay = true ↔ List.IsInfix n hay
  | [] => by
    simp [strContainsList, List.isEmpty_iff]
  | c :: t => by
    have ih := strContainsList_iff n t
    simp only [strContainsList, Bool.or_eq_true, List.isPrefixOf_iff_prefix, ih]
    rw [List.infix_cons_iff]

/-- C4 counterexample.  With target email set `{"a@x.com"}`, the email
`"A@X.COM"` is case-insensitively equal to the configured email (its
lower-casing is exactly `"a@x.com"`), yet the matcher rejects it: `is_me`
compares emails case-sensitively, so the claimed case-insensitive equality
rule does not hold of the matcher. -/
theorem C4_counterexample_case_sensitive :
    is_me ⟨["a@x.com"], []⟩ "B" "A@X.COM" = false
    ∧ pyLower "A@X.COM" = "a@x.com" := by decide

/-- C4 amended.  The matcher is fully case-sensitive: it returns true exactly
when the email equals a configured email, or the name equals a configured
name, or some configured email occurs as a substring of the email (all
compared exactly; in the pipeline incoming emails are lower-cased by
`parse_git_log` before matching, which is what tolerates case differences on
the commit side).  The spec's three examples hold as stated. -/
theorem C4_is_me_characterization :
    (∀ (emails names : List String) (n e : String),
      is_me ⟨emails, names⟩ n e = true ↔
        (e ∈ emails ∨ n ∈ names ∨ ∃ t ∈ emails, List.IsInfix t.data e.data))
    ∧ is_me ⟨["a@x.com"], []⟩ "A" "a@x.com" = true
    ∧ is_me ⟨["a@x.com"], []⟩ "B" "b@y.com" = false
    ∧ is_me ⟨["a@x.com"], []⟩ "B" "a@x.com.test" = true := by
  refine ⟨?_, by decide, by decide, by decide⟩
  intro emails names n e
  have hout : is_me ⟨emails, names⟩ n e
      = (emails.contains e || names.contains n
         || emails.any fun my_id => pyInStr my_id e) := by
    unfold is_me
    cases h : (emails.contains e || names.contains n) <;> simp [h]
  rw [hout]
  simp only [Bool.or_eq_true, List.any_eq_true, pyInStr, strContainsList_iff,
    List.contains_iff_exists_mem_beq, beq_iff_eq]
  constructor
  · rintro ((⟨x, hx, rfl⟩ | ⟨x, hx, rfl⟩) | ⟨t, ht, hc⟩)
    · exact Or.inl hx
    · exact Or.inr (Or.inl hx)
    · exact Or.inr (Or.inr ⟨t, ht, hc⟩)
  · rintro (hx | hx | ⟨t, ht, hc⟩)
    · exact Or.inl (Or.inl ⟨e, hx, rfl⟩)
    · exact Or.inl (Or.inr ⟨n, hx, rfl⟩)
    · exact Or.inr ⟨t, ht, hc⟩

/-! ### Filtering of change lines -/

/-- The identity configuration used by concrete runs in this development. -/
def cfgX : Config := ⟨["a@x.com"], []⟩

/-- C3.  Minified assets are NOT skipped: `os.path.splitext` only ever yields
the suffix after the last dot, so the extension computed for `app.min.js` is
`.js`, which is not in the ignore set, even though `.min.js` itself is listed
there (with the comment "Minified code").  A commit touching only
`app.min.js` therefore contributes its full 10 additions and 5 deletions,
contradicting both the claim and the set's own intent. -/
theorem C3_minified_assets_not_skipped :
    parse_git_log cfgX
      ["HEADER|h|2024-01-01T10:00:00+00:00|A|a@x.com", "10\t5\tapp.min.js"]
      = [{ hash := "h", date := "2024-01-01T10:00:00+00:00", name := "A",
           email := "a@x.com", additions := 10, deletions := 5, files := 1 }]
    ∧ ".min.js" ∈ IGNORE_EXTENSIONS
    ∧ pyLower (splitextExt "app.min.js") = ".js"
    ∧ ".js" ∉ IGNORE_EXTENSIONS := by decide

/-- C6 counterexample.  The change line `5<TAB>x<TAB>f.py` has an unparsable
second numeric field, yet processing it does not leave the commit unchanged:
the first field has already been added before the `ValueError` is raised, so
the commit ends with 5 additions instead of 0. -/
theorem C6_counterexample_partial_line :
    (parse_git_log cfgX
      ["HEADER|h|2024-01-01T10:00:00+00:00|A|a@x.com", "5\tx\tf.py"]).map
        (fun c => (c.additions, c.deletions, c.files))
      = [((5:Int), (0:Int), (0:Nat))]
    ∧ ((5:Int) ≠ 0) := by decide

/-- C6 amended.  A malformed numeric field never aborts the commit or the
repository parse: the line is abandoned at the first unparsable field, the
deletions and touched-file count are never affected by such a line, and when
the first (additions) field is itself unparsable the commit is left entirely
unchanged; but when the additions field parses and the deletions field is the
unparsable one, the additions value has already been applied.  Parsing then
continues with the remaining lines. -/
theorem C6_malformed_line_recovery :
    ∀ (c : RawCommit) (added deleted : String),
      ((added ≠ "-" ∧ pyInt added = none) → statUpdate c added deleted = c)
      ∧ ((deleted ≠ "-" ∧ pyInt deleted = none) →
          (statUpdate c added deleted).deletions = c.deletions
          ∧ (statUpdate c added deleted).files = c.files)
      ∧ (∀ (cfg : Config) (line fn : String) (rest : List String)
            (acc : List RawCommit),
          pyStartsWith "HEADER|" line = false →
          pyStrip line ≠ "" →
          pySplitMax2 line = [added, deleted, fn] →
          basename (pyStrip fn) ∉ IGNORE_EXACT_FILES →
          pyLower (splitextExt (pyStrip fn)) ∉ IGNORE_EXTENSIONS →
          processLines cfg (line :: rest) (some c) acc
            = processLines cfg rest (some (statUpdate c added deleted)) acc) := by
  intro c added deleted
  refine ⟨?_, ?_, ?_⟩
  · rintro ⟨h1, h2⟩
    simp [statUpdate, h1, h2]
  · rintro ⟨h1, h2⟩
    by_cases ha : added = "-"
    · simp [statUpdate, ha, h1, h2]
    · cases hpa : pyInt added with
      | none => simp [statUpdate, ha, hpa]
      | some v => simp [statUpdate, ha, hpa, h1, h2]
  · intro cfg line fn rest acc hh hs hsplit m1 m2
    rw [processLines]
    rw [hh]
    simp only [Bool.false_eq_true, if_false]
    rw [if_neg hs, hsplit]
    simp [m1, m2]

/-- A concrete pending commit used by the C6 witness. -/
def c6w : RawCommit :=
  ⟨"h", "2024-01-01T10:00:00+00:00", "A", "a@x.com", 0, 0, 0⟩

/-- Witness for C6: the first-field clause and the continuation clause of the
amended statement, instantiated on the concrete malformed line
`x<TAB>5<TAB>f.py`. -/
theorem C6_malformed_line_recovery_witness :
    ("x" ≠ "-" ∧ pyInt "x" = none)
    ∧ statUpdate c6w "x" "5" = c6w
    ∧ (pyStartsWith "HEADER|" "x\t5\tf.py" = false
       ∧ pyStrip "x\t5\tf.py" ≠ ""
       ∧ pySplitMax2 "x\t5\tf.py" = ["x", "5", "f.py"])
    ∧ processLines cfgX ["x\t5\tf.py"] (some c6w) []
        = processLines cfgX [] (some (statUpdate c6w "x" "5")) [] :=
  ⟨⟨by decide, by decide⟩,
   (C6_malformed_line_recovery c6w "x" "5").1 ⟨by decide, by decide⟩,
   ⟨by decide, by decide, by decide⟩,
   (C6_malformed_line_recovery c6w "x" "5").2.2 cfgX "x\t5\tf.py" "f.py" [] []
     (by decide) (by decide) (by decide) (by decide) (by decide)⟩

/-! ### Language snapshot -/

/-- The extension table with the dot-less `"dockerfile"` entry removed, for
comparison with the full table. -/
def EXTENSIONS_sans_dockerfile : List (String × String) :=
  EXTENSIONS.filter fun p => p.1 != "dockerfile"

/-- `get_current_languages` computed over the reduced table. -/
def get_current_languages_sans (files : List String) : List (String × Nat) :=
  files.foldl
    (fun m f =>
      match EXTENSIONS_sans_dockerfile.lookup (pyLower (splitextExt f)) with
      | some lang => bumpBy m lang 1
      | none => m)
    []

lemma splitextExtCore_shape (base : List Char) :
    splitextExtCore base = [] ∨ ∃ cs, splitextExtCore base = '.' :: cs := by
  unfold splitextExtCore
  split_ifs
  · exact Or.inl rfl
  · exact Or.inr ⟨_, rfl⟩
  · exact Or.inl rfl

lemma pyLower_splitextExt_shape (s : String) :
    pyLower (splitextExt s) = ""
    ∨ ∃ cs, pyLower (splitextExt s) = String.mk ('.' :: cs) := by
  rcases splitextExtCore_shape ((splitOnChar '/' s.data).getLastD []) with h | ⟨cs, h⟩
  · left
    rw [splitextExt, h]
    rfl
  · right
    refine ⟨cs.map Char.toLower, ?_⟩
    rw [splitextExt, h]
    rfl

lemma splitext_key_ne_dockerfile (s : String) :
    pyLower (splitextExt s) ≠ "dockerfile" := by
  rcases pyLower_splitextExt_shape s with h | ⟨cs, h⟩ <;> rw [h] <;> intro hx
  · exact absurd hx (by decide)
  · have h2 : '.' :: cs = "dockerfile".data := congrArg String.data hx
    have h3 : ('.' :: cs).head? = ("dockerfile".data).head? := by rw [h2]
    rw [show ("dockerfile".data).head? = some 'd' from rfl,
      show ('.' :: cs).head? = some '.' from rfl] at h3
    exact absurd (Option.some.inj h3) (by decide)

lemma lookup_filter_ne {k bad : String} (h : k ≠ bad) :
    ∀ tbl : List (String × String),
      (tbl.filter fun p => p.1 != bad).lookup k = tbl.lookup k
  | [] => rfl
  | (a, b) :: t => by
    have ih := lookup_filter_ne h t
    by_cases hab : a = bad
    · have hf : ((a, b).1 != bad) = false := by simp [hab]
      have hk : (k == a) = false := by simp [hab, h]
      rw [List.filter_cons, hf]
      simp only [Bool.false_eq_true, if_false]
      rw [ih, List.lookup, hk]
    · have hf : ((a, b).1 != bad) = true := by simp [hab]
      rw [List.filter_cons, hf]
      simp only [if_true]
      rw [List.lookup, List.lookup]
      cases k == a
      · exact ih
      · rfl

/-- C10.  The `"dockerfile"` key (no leading dot) of the extension table is
unreachable: every lookup key produced by `get_current_languages` is either
empty or starts with a dot, so removing that entry never changes the
snapshot; in particular a file named exactly `Dockerfile` has extension `""`
and is not counted at all. -/
theorem C10_dockerfile_key_unreachable :
    (∀ f : String, pyLower (splitextExt f) ≠ "dockerfile")
    ∧ (∀ files : List String,
        get_current_languages files = get_current_languages_sans files)
    ∧ splitextExt "Dockerfile" = ""
    ∧ get_current_languages ["Dockerfile"] = []
    ∧ (∀ (files : List String) (f : String), splitextExt f = "" →
        get_current_languages (files ++ [f]) = get_current_languages files) := by
  refine ⟨splitext_key_ne_dockerfile, ?_, by decide, by decide, ?_⟩
  · intro files
    unfold get_current_languages get_current_languages_sans
    suffices hgen : ∀ m : List (String × Nat),
        files.foldl
          (fun m f =>
            match EXTENSIONS.lookup (pyLower (splitextExt f)) with
            | some lang => bumpBy m lang 1
            | none => m) m
        = files.foldl
          (fun m f =>
            match EXTENSIONS_sans_dockerfile.lookup (pyLower (splitextExt f)) with
            | some lang => bumpBy m lang 1
            | none => m) m from hgen []
    induction files with
    | nil => intro m; rfl
    | cons f fs ih =>
      intro m
      have hl : EXTENSIONS_sans_dockerfile.lookup (pyLower (splitextExt f))
          = EXTENSIONS.lookup (pyLower (splitextExt f)) :=
        lookup_filter_ne (splitext_key_ne_dockerfile f) EXTENSIONS
      simp only [List.foldl_cons, hl]
      exact ih _
  · intro files f hf
    unfold get_current_languages
    rw [List.foldl_append]
    simp only [List.foldl_cons, List.foldl_nil]
    rw [hf]
    rfl

/-- Witness for C10: the no-extension clause applied to a file named exactly
`Dockerfile`. -/
theorem C10_dockerfile_key_unreachable_witness :
    splitextExt "Dockerfile" = ""
    ∧ get_current_languages ([] ++ ["Dockerfile"]) = get_current_languages [] :=
  ⟨by decide,
   C10_dockerfile_key_unreachable.2.2.2.2 [] "Dockerfile" (by decide)⟩

/-! ### Pipeline lemmas -/

/-- The flattened commits of all repositories in discovery order: what `main`
accumulates into `all_commits` (each repository's parsed commits kept in log
order, repositories kept in discovery order, nothing re-sorted). -/
def pipelineCommits (cfg : Config) (repos : List RepoInput) : List FlatCommit :=
  (repos.map fun r => (parse_git_log cfg r.log).map (flatten r.name)).flatten

lemma mainFold_fst (cfg : Config) :
    ∀ (repos : List RepoInput)
      (st : List FlatCommit × List (String × Nat) × List (String × Nat)),
      (repos.foldl (mainStep cfg) st).1 = st.1 ++ pipelineCommits cfg repos
  | [], st => by simp [pipelineCommits]
  | r :: rs, st => by
    rw [List.foldl_cons, mainFold_fst cfg rs]
    show (mainStep cfg st r).1 ++ _ = _
    rw [mainStep]
    simp [pipelineCommits, List.append_assoc]

lemma main_eq_some {cfg : Config} {repos : List RepoInput} {ds : Dataset}
    (h : main cfg repos = some ds) :
    ds.detailed_commits = pipelineCommits cfg repos
    ∧ estimate_hours ds.detailed_commits = some ds.total_hours_estimated := by
  simp only [main] at h
  cases he : estimate_hours (repos.foldl (mainStep cfg) ([], [], [])).1 with
  | none => rw [he] at h; exact absurd h (by simp)
  | some q =>
    rw [he] at h
    have hds := Option.some.inj h
    have hfst : (repos.foldl (mainStep cfg) ([], [], [])).1
        = pipelineCommits cfg repos := by
      rw [mainFold_fst]
      rfl
    constructor
    · rw [← hds, ← hfst]
    · rw [← hds]
      show estimate_hours (repos.foldl (mainStep cfg) ([], [], [])).1 = some q
      exact he

lemma reduceOption_map_some : ∀ ts : List ℚ, (ts.map some).reduceOption = ts
  | [] => rfl
  | a :: l => by simp [List.reduceOption_cons_of_some, reduceOption_map_some l]

lemma estimate_hours_eq_core {commits : List FlatCommit} {ts : List ℚ}
    (hts : commits.map (fun c => fromisoformat c.date) = ts.map some) :
    estimate_hours commits = some (estimate_hours_core ts) := by
  unfold estimate_hours
  by_cases hc : commits.isEmpty = true
  · obtain rfl : commits = [] := List.isEmpty_iff.mp hc
    obtain rfl : ts = [] := by
      cases ts with
      | nil => rfl
      | cons a l => exact absurd hts.symm (by simp)
    rw [if_pos hc]
    rfl
  · rw [if_neg hc]
    have hall : (commits.map fun c => fromisoformat c.date).all Option.isSome
        = true := by
      rw [hts, List.all_eq_true]
      intro x hx
      rcases List.mem_map.mp hx with ⟨y, _, rfl⟩
      rfl
    rw [if_pos hall]
    congr 1
    rw [hts, reduceOption_map_some]

/-- Concrete repository `A`: one matched commit at 12:00 UTC. -/
def repoA : RepoInput :=
  { name := "A",
    log := ["HEADER|h1|2024-01-01T12:00:00+00:00|me|a@x.com", "1\t2\tf.py"],
    files := [] }

/-- Concrete repository `B`: one matched commit at 12:30 UTC. -/
def repoB : RepoInput :=
  { name := "B",
    log := ["HEADER|h2|2024-01-01T12:30:00+00:00|me|a@x.com", "3\t4\tg.rs"],
    files := [] }

/-- The dataset `main` produces on `[repoA, repoB]`. -/
def dsAB : Dataset :=
  { detailed_commits :=
      [⟨"2024-01-01T12:00:00+00:00", "A", 1, 2, 3⟩,
       ⟨"2024-01-01T12:30:00+00:00", "B", 3, 4, 7⟩],
    languages := [], repos := [("A", 1), ("B", 1)],
    total_hours_estimated := 3/2 }

/-- The two UTC instants of `repoA` / `repoB`. -/
def tsAB : List ℚ := [1704110400, 1704112200]

lemma estAB :
    estimate_hours (pipelineCommits cfgX [repoA, repoB]) = some (3/2) := by
  rw [@estimate_hours_eq_core (pipelineCommits cfgX [repoA, repoB]) tsAB
    (by decide)]
  congr 1
  rw [estimate_hours_core_of_ne_nil (by simp [tsAB]),
    List.Sorted.insertionSort_eq (by norm_num [tsAB, List.sorted_cons])]
  show (sessionAdd ((1704112200 : ℚ) - 1704110400) + 3600) / 3600 = 3/2
  norm_num [sessionAdd]

lemma mainAB_eq : main cfgX [repoA, repoB] = some dsAB := by
  have hst : [repoA, repoB].foldl (mainStep cfgX) ([], [], [])
      = (dsAB.detailed_commits, [], [("A", 1), ("B", 1)]) := by decide
  have hpc : pipelineCommits cfgX [repoA, repoB] = dsAB.detailed_commits := by
    decide
  have hest := estAB
  rw [hpc] at hest
  simp only [main, hst]
  rw [hest]
  rfl

lemma estA1 : estimate_hours (pipelineCommits cfgX [repoA]) = some 1 := by
  rw [@estimate_hours_eq_core (pipelineCommits cfgX [repoA])
    [(1704110400 : ℚ)] (by decide)]
  congr 1
  rw [estimate_hours_core_of_ne_nil (by simp)]
  show sessionSeconds [(1704110400 : ℚ)] / 3600 = 1
  show (3600 : ℚ) / 3600 = 1
  norm_num

lemma estB1 : estimate_hours (pipelineCommits cfgX [repoB]) = some 1 := by
  rw [@estimate_hours_eq_core (pipelineCommits cfgX [repoB])
    [(1704112200 : ℚ)] (by decide)]
  congr 1
  rw [estimate_hours_core_of_ne_nil (by simp)]
  show (3600 : ℚ) / 3600 = 1
  norm_num

/-- C2.  The emitted `total_hours_estimated` is the estimator applied to the
single merged, ascending-sorted timeline of every matched commit of every
repository — not a sum of per-repository estimates.  Concretely, two
repositories contributing one commit each, 30 wall-clock minutes apart, give
1.5 total hours, while the per-repository estimates are 1 hour each (summing
to 2). -/
theorem C2_total_hours_merged_timeline :
    (∀ (cfg : Config) (repos : List RepoInput) (ds : Dataset) (ts : List ℚ),
      main cfg repos = some ds →
      (pipelineCommits cfg repos).map (fun c => fromisoformat c.date)
        = ts.map some →
      ds.total_hours_estimated
        = estimate_hours_core (List.insertionSort (· ≤ ·) ts))
    ∧ main cfgX [repoA, repoB] = some dsAB
    ∧ dsAB.total_hours_estimated = 3/2
    ∧ estimate_hours (pipelineCommits cfgX [repoA]) = some 1
    ∧ estimate_hours (pipelineCommits cfgX [repoB]) = some 1
    ∧ (3/2 : ℚ) ≠ 1 + 1 := by
  refine ⟨?_, mainAB_eq, rfl, estA1, estB1, by norm_num⟩
  intro cfg repos ds ts hmain hts
  obtain ⟨hdc, hest⟩ := main_eq_some hmain
  rw [hdc, estimate_hours_eq_core hts] at hest
  rw [← Option.some.inj hest]
  exact (estimate_hours_core_perm (List.perm_insertionSort _ ts)).symm

/-- Witness for C2: the merged-timeline clause instantiated on the concrete
two-repository run. -/
theorem C2_total_hours_merged_timeline_witness :
    main cfgX [repoA, repoB] = some dsAB
    ∧ (pipelineCommits cfgX [repoA, repoB]).map (fun c => fromisoformat c.date)
        = tsAB.map some
    ∧ dsAB.total_hours_estimated
        = estimate_hours_core (List.insertionSort (· ≤ ·) tsAB) :=
  ⟨mainAB_eq, by decide,
   C2_total_hours_merged_timeline.1 cfgX [repoA, repoB] dsAB tsAB
     mainAB_eq (by decide)⟩

/-- A repository whose log lists the newer commit first, as `git log` does. -/
def repoOut : RepoInput :=
  { name := "r",
    log := ["HEADER|h1|2024-01-01T12:00:00+00:00|A|a@x.com",
            "HEADER|h2|2024-01-01T10:00:00+00:00|A|a@x.com"],
    files := [] }

/-- The dataset `main` produces on `[repoOut]`. -/
def ds5 : Dataset :=
  { detailed_commits :=
      [⟨"2024-01-01T12:00:00+00:00", "r", 0, 0, 0⟩,
       ⟨"2024-01-01T10:00:00+00:00", "r", 0, 0, 0⟩],
    languages := [], repos := [("r", 2)],
    total_hours_estimated := 2 }

lemma mainOut_eq : main cfgX [repoOut] = some ds5 := by
  have hst : [repoOut].foldl (mainStep cfgX) ([], [], [])
      = (ds5.detailed_commits, [], [("r", 2)]) := by decide
  have hest : estimate_hours ds5.detailed_commits = some 2 := by
    rw [@estimate_hours_eq_core ds5.detailed_commits
      [(1704110400 : ℚ), 1704103200] (by decide)]
    congr 1
    rw [estimate_hours_core_of_ne_nil (by simp),
      show List.insertionSort (· ≤ ·) [(1704110400 : ℚ), 1704103200]
          = [(1704103200 : ℚ), 1704110400] from
        List.eq_of_perm_of_sorted
          ((List.perm_insertionSort _ _).trans
            (List.Perm.swap 1704103200 1704110400 []))
          (List.sorted_insertionSort _ _) (by norm_num [List.sorted_cons])]
    show (sessionAdd ((1704110400 : ℚ) - 1704103200) + 3600) / 3600 = 2
    norm_num [sessionAdd]
  simp only [main, hst]
  rw [hest]
  rfl

/-- C5 counterexample.  `main` emits `detailed_commits` in extraction order:
for a repository whose history lists 12:00 before 10:00, the emitted sequence
is `[12:00, 10:00]`, whose timestamps are strictly decreasing — the global
commit sequence is not sorted ascending before the dataset is assembled. -/
theorem C5_counterexample_unsorted_output :
    ((main cfgX [repoOut]).map fun ds => ds.detailed_commits.map FlatCommit.date)
      = some ["2024-01-01T12:00:00+00:00", "2024-01-01T10:00:00+00:00"]
    ∧ fromisoformat "2024-01-01T12:00:00+00:00" = some 1704110400
    ∧ fromisoformat "2024-01-01T10:00:00+00:00" = some 1704103200
    ∧ ¬ ((1704110400 : ℚ) ≤ 1704103200) := by
  refine ⟨?_, by decide, by decide, by norm_num⟩
  rw [mainOut_eq]
  rfl

/-- C5 amended.  The global commit sequence is never re-sorted: the emitted
`detailed_commits` is exactly the in-order concatenation of each repository's
parsed commits (per-repository most-recent-first extraction order preserved).
Only `estimate_hours` sorts — internally, on its own copy — so
`total_hours_estimated` is the value the estimator gives that sequence, and
any reordering of the sequence yields the same total. -/
theorem C5_output_order_unsorted_estimator_sorts :
    ∀ (cfg : Config) (repos : List RepoInput) (ds : Dataset),
      main cfg repos = some ds →
      ds.detailed_commits = pipelineCommits cfg repos
      ∧ estimate_hours ds.detailed_commits = some ds.total_hours_estimated
      ∧ ∀ l2 : List FlatCommit, List.Perm ds.detailed_commits l2 →
          estimate_hours l2 = some ds.total_hours_estimated := by
  intro cfg repos ds h
  obtain ⟨h1, h2⟩ := main_eq_some h
  exact ⟨h1, h2, fun l2 hp => (estimate_hours_congr_perm hp).symm.trans h2⟩

/-- Witness for C5's amended statement on the concrete out-of-order run. -/
theorem C5_output_order_unsorted_estimator_sorts_witness :
    main cfgX [repoOut] = some ds5
    ∧ ds5.detailed_commits = pipelineCommits cfgX [repoOut]
    ∧ estimate_hours ds5.detailed_commits = some ds5.total_hours_estimated :=
  ⟨mainOut_eq,
   (C5_output_order_unsorted_estimator_sorts cfgX [repoOut] ds5 mainOut_eq).1,
   (C5_output_order_unsorted_estimator_sorts cfgX [repoOut] ds5 mainOut_eq).2.1⟩

/-! ### C8: nonnegative churn on git-shaped input -/

/-- A numstat numeric field as git emits it: either the binary sentinel `-`
or a value that parses to a nonnegative integer. -/
def fieldOK (s : String) : Bool :=
  s == "-" || (match pyInt s with
               | some v => decide (0 ≤ v)
               | none => true)

/-- A raw history line is git-shaped when, if it would be consumed as a
three-field statistic line, both numeric fields are `fieldOK`. -/
def lineOK (line : String) : Bool :=
  if pyStartsWith "HEADER|" line then true
  else
    match pySplitMax2 line with
    | [a, d, _] => fieldOK a && fieldOK d
    | _ => true

/-- Every line of a raw history is git-shaped. -/
def linesOK (lines : List String) : Bool := lines.all lineOK

lemma statUpdate_nonneg {c : RawCommit} {a d : String}
    (hf : (fieldOK a && fieldOK d) = true)
    (ha : 0 ≤ c.additions) (hd : 0 ≤ c.deletions) :
    0 ≤ (statUpdate c a d).additions ∧ 0 ≤ (statUpdate c a d).deletions := by
  obtain ⟨hfa, hfd⟩ := Bool.and_eq_true_iff.mp hf
  have hva : ∀ v : Int, a ≠ "-" → pyInt a = some v → 0 ≤ v := by
    intro v hne hv
    rw [fieldOK, hv] at hfa
    rcases Bool.or_eq_true_iff.mp hfa with h | h
    · exact absurd (by simpa using h) hne
    · exact of_decide_eq_true h
  have hvd : ∀ v : Int, d ≠ "-" → pyInt d = some v → 0 ≤ v := by
    intro v hne hv
    rw [fieldOK, hv] at hfd
    rcases Bool.or_eq_true_iff.mp hfd with h | h
    · exact absurd (by simpa using h) hne
    · exact of_decide_eq_true h
  by_cases h1 : a = "-"
  · by_cases h2 : d = "-"
    · simp [statUpdate, h1, h2]
      exact ⟨ha, hd⟩
    · cases hv : pyInt d with
      | none => simp [statUpdate, h1, h2, hv]; exact ⟨ha, hd⟩
      | some w =>
        have hw := hvd w h2 hv
        simp [statUpdate, h1, h2, hv]
        exact ⟨ha, add_nonneg hd hw⟩
  · cases hv : pyInt a with
    | none => simp [statUpdate, h1, hv]; exact ⟨ha, hd⟩
    | some v =>
      have hv0 := hva v h1 hv
      by_cases h2 : d = "-"
      · simp [statUpdate, h1, h2, hv]
        exact ⟨add_nonneg ha hv0, hd⟩
      · cases hv2 : pyInt d with
        | none =>
          simp [statUpdate, h1, h2, hv, hv2]
          exact ⟨add_nonneg ha hv0, hd⟩
        | some w =>
          have hw := hvd w h2 hv2
          simp [statUpdate, h1, h2, hv, hv2]
          exact ⟨add_nonneg ha hv0, add_nonneg hd hw⟩

lemma saveCur_nonneg {cfg : Config} {cur : Option RawCommit}
    {acc : List RawCommit}
    (hacc : ∀ x ∈ acc, 0 ≤ x.additions ∧ 0 ≤ x.deletions)
    (hcur : ∀ x, cur = some x → 0 ≤ x.additions ∧ 0 ≤ x.deletions) :
    ∀ x ∈ saveCur cfg cur acc, 0 ≤ x.additions ∧ 0 ≤ x.deletions := by
  intro x hx
  cases cur with
  | none => exact hacc x (by simpa [saveCur] using hx)
  | some c0 =>
    rw [saveCur] at hx
    by_cases him : is_me cfg c0.name c0.email = true
    · rw [if_pos him] at hx
      rcases List.mem_append.mp hx with h | h
      · exact hacc x h
      · have hxc : x = c0 := by simpa using h
        subst hxc
        exact hcur x rfl
    · rw [if_neg him] at hx
      exact hacc x hx

lemma processLines_nonneg (cfg : Config) :
    ∀ (lines : List String) (cur : Option RawCommit) (acc : List RawCommit),
      linesOK lines = true →
      (∀ x ∈ acc, 0 ≤ x.additions ∧ 0 ≤ x.deletions) →
      (∀ x, cur = some x → 0 ≤ x.additions ∧ 0 ≤ x.deletions) →
      ∀ c ∈ processLines cfg lines cur acc,
        0 ≤ c.additions ∧ 0 ≤ c.deletions := by
  intro lines
  induction lines with
  | nil =>
    intro cur acc _ hacc hcur c hc
    simp only [processLines] at hc
    exact saveCur_nonneg hacc hcur c hc
  | cons line rest ih =>
    intro cur acc hok hacc hcur c hc
    have hok2' := hok
    rw [linesOK, List.all_cons, Bool.and_eq_true_iff] at hok2'
    obtain ⟨hok1, hok2⟩ := hok2'
    cases cur with
    | none =>
      rw [processLines] at hc
      split at hc
      · split at hc
        · refine ih _ _ hok2 (saveCur_nonneg hacc hcur) ?_ c hc
          intro x hx
          obtain rfl : _ = x := Option.some.inj hx
          exact ⟨le_refl _, le_refl _⟩
        · exact saveCur_nonneg hacc hcur c hc
      · exact ih _ _ hok2 hacc (fun x hx => by cases hx) c hc
    | some c0 =>
      rw [processLines] at hc
      split at hc
      · split at hc
        · refine ih _ _ hok2 (saveCur_nonneg hacc hcur) ?_ c hc
          intro x hx
          obtain rfl : _ = x := Option.some.inj hx
          exact ⟨le_refl _, le_refl _⟩
        · exact saveCur_nonneg hacc hcur c hc
      · rename_i hh
        split at hc
        · exact ih _ _ hok2 hacc hcur c hc
        · split at hc
          · rename_i a d fn hsplit
            split at hc
            · exact ih _ _ hok2 hacc hcur c hc
            · split at hc
              · exact ih _ _ hok2 hacc hcur c hc
              · refine ih _ _ hok2 hacc ?_ c hc
                intro x hx
                obtain rfl : _ = x := Option.some.inj hx
                have hcc := hcur c0 rfl
                have hfo : (fieldOK a && fieldOK d) = true := by
                  rw [lineOK, if_neg hh, hsplit] at hok1
                  exact hok1
                exact statUpdate_nonneg hfo hcc.1 hcc.2
          · exact ih _ _ hok2 hacc hcur c hc

lemma parse_git_log_nonneg {cfg : Config} {lines : List String}
    (h : linesOK lines = true) :
    ∀ c ∈ parse_git_log cfg lines, 0 ≤ c.additions ∧ 0 ≤ c.deletions :=
  processLines_nonneg cfg lines none []
    h (by simp) (fun x hx => by cases hx)

/-- C8.  On git-shaped raw input (numstat numeric fields are nonnegative or
the `-` sentinel, as `git log --numstat` guarantees), every commit in the
emitted dataset has nonnegative additions and deletions, and its impact is
always exactly additions + deletions. -/
theorem C8_commit_invariants :
    ∀ (cfg : Config) (repos : List RepoInput) (ds : Dataset),
      main cfg repos = some ds →
      (∀ r ∈ repos, linesOK r.log = true) →
      ∀ c ∈ ds.detailed_commits,
        0 ≤ c.additions ∧ 0 ≤ c.deletions
        ∧ c.impact = c.additions + c.deletions := by
  intro cfg repos ds hmain hok c hc
  obtain ⟨hdc, _⟩ := main_eq_some hmain
  rw [hdc] at hc
  rcases List.mem_flatten.mp hc with ⟨l, hl, hcl⟩
  rcases List.mem_map.mp hl with ⟨r, hr, rfl⟩
  rcases List.mem_map.mp hcl with ⟨rc, hrc, rfl⟩
  have hnn := parse_git_log_nonneg (hok r hr) rc hrc
  exact ⟨hnn.1, hnn.2, rfl⟩

/-- The dataset `main` produces on `[repoA]`. -/
def dsA : Dataset :=
  { detailed_commits := [⟨"2024-01-01T12:00:00+00:00", "A", 1, 2, 3⟩],
    languages := [], repos := [("A", 1)],
    total_hours_estimated := 1 }

lemma mainA_eq : main cfgX [repoA] = some dsA := by
  have hst : [repoA].foldl (mainStep cfgX) ([], [], [])
      = (dsA.detailed_commits, [], [("A", 1)]) := by decide
  have hest := estA1
  have hpc : pipelineCommits cfgX [repoA] = dsA.detailed_commits := by decide
  rw [hpc] at hest
  simp only [main, hst]
  rw [hest]
  rfl

/-- Witness for C8: the invariant on the concrete single-repository run. -/
theorem C8_commit_invariants_witness :
    main cfgX [repoA] = some dsA
    ∧ (∀ r ∈ [repoA], linesOK r.log = true)
    ∧ ∀ c ∈ dsA.detailed_commits,
        0 ≤ c.additions ∧ 0 ≤ c.deletions
        ∧ c.impact = c.additions + c.deletions :=
  ⟨mainA_eq, by decide,
   C8_commit_invariants cfgX [repoA] dsA mainA_eq (by decide)⟩

end GitWrapped
